import Mathlib

/-!
# Verification of the STIX pattern parser's AST-construction layer

This file gives a shallow embedding of the repository's parser module
(`src/parser.rs`) and AST data model (`src/ast.rs`) and proves the
specification's claims about them.

The pest grammar file (`grammar.pest`) and the external crates
(`pest`, `chrono`, the standard numeric parsers) are not part of the
sources under verification; the concrete parse tree handed to the
builders is modelled by the `Pair` type below, and the external literal
parsers are modelled from the spec where noted.
-/

set_option autoImplicit false

namespace StixPatterns

/-- Grammar rule tags, mirroring the `Rule` enum that pest derives from
`grammar.pest` (the rule names are those matched on in `src/parser.rs`;
Lean keywords `exists`, `in`, `match` are suffixed with `R`). -/
inductive Rule where
  | pattern | expression | observation | observation_group
  | comparison | existsR | path | not | value | list
  | equal | not_equal | gt | lt | ge | le | inR | like | matchR
  | issubset | issuperset
  | and | or | followedby
  | qualifier | repeatR | within | interval | pos_int | pos_float
  | object | step | property | index
  | string | bool | float | int | time | hex | bin
  deriving DecidableEq, Repr

/-- A node of the concrete parse tree produced by the grammar recognizer:
a rule tag, the matched text span, and the inner pairs — the shape of
pest's `Pair` as consumed by `src/parser.rs` (`as_rule`, `as_str`,
`into_inner`). -/
inductive Pair where
  | mk (rule : Rule) (str : String) (inner : List Pair)

def Pair.rule : Pair → Rule
  | .mk r _ _ => r

def Pair.str : Pair → String
  | .mk _ s _ => s

def Pair.inner : Pair → List Pair
  | .mk _ _ i => i

/-! ## AST data model (`src/ast.rs`) -/

/-- `ComparisonOp` from `src/ast.rs` (`In` is written `inOp` for Lean). -/
inductive ComparisonOp where
  | eq | neq | gt | lt | ge | le | inOp | like | matches
  | isSubset | isSuperset
  deriving DecidableEq, Repr

/-- `UnaryOp` from `src/ast.rs`. -/
inductive UnaryOp where
  | existsOp
  deriving DecidableEq, Repr

/-- `BooleanOp` from `src/ast.rs`; `And` is the `Default`. -/
inductive BooleanOp where
  | and | or
  deriving DecidableEq, Repr

instance : Inhabited BooleanOp := ⟨.and⟩

/-- `ObservationOp` from `src/ast.rs`. -/
inductive ObservationOp where
  | and | or | followedBy
  deriving DecidableEq, Repr

/-- `ListIndex` from `src/ast.rs` (`Index` holds a `u32`, embedded as a
`Nat` produced by the range-checked `u32` parser below). -/
inductive ListIndex where
  | index (i : Nat)
  | star
  deriving DecidableEq, Repr

/-- `PathComponent` from `src/ast.rs`. -/
structure PathComponent where
  property : String
  index : Option ListIndex
  deriving DecidableEq, Repr

/-- `ObjectPath` from `src/ast.rs`. -/
structure ObjectPath where
  object_type : String
  property_path : List PathComponent
  deriving DecidableEq, Repr

/-- A `chrono::DateTime<Utc>` instant, embedded as microseconds since the
Unix epoch (the spec fixes microsecond resolution for timestamps). -/
structure DateTimeUtc where
  micros : Int
  deriving DecidableEq, Repr

/-- `StixValue` from `src/ast.rs`. The `Float` payload (an `f64` built by
parsing a decimal literal) is embedded as the exact rational value of the
literal. -/
inductive StixValue where
  | string (s : String)
  | int (i : Int)
  | float (f : Rat)
  | bool (b : Bool)
  | timestamp (t : DateTimeUtc)
  | hex (s : String)
  | binary (s : String)
  deriving DecidableEq, Repr

/-- `ComparisonRhs` from `src/ast.rs`. -/
inductive ComparisonRhs where
  | value (v : StixValue)
  | list (vs : List StixValue)
  deriving DecidableEq, Repr

/-- `ComparisonOperator` from `src/ast.rs`. -/
inductive ComparisonOperator where
  | comparison (op : ComparisonOp)
  | unary (op : UnaryOp)
  deriving DecidableEq, Repr

/-- `Comparison` from `src/ast.rs`: object path, operator, optional rhs
(field `constant`), negation flag. -/
structure Comparison where
  object_path : ObjectPath
  op : ComparisonOperator
  constant : Option ComparisonRhs
  negated : Bool
  deriving DecidableEq, Repr

/-- `ComparisonExpr` from `src/ast.rs`, with `CompositeComparison`
inlined as the `composite` constructor (left, boolean op, right). -/
inductive ComparisonExpr where
  | single (c : Comparison)
  | composite (left : ComparisonExpr) (op : BooleanOp) (right : ComparisonExpr)
  deriving DecidableEq, Repr

/-- `PatternExpr` from `src/ast.rs`, with `CompositePattern` and
`QualifiedPattern` inlined as constructors. -/
inductive PatternExpr where
  | comparison (c : ComparisonExpr)
  | composite (left : PatternExpr) (op : ObservationOp) (right : PatternExpr)
  | qualified (pattern : PatternExpr) (repeatN : Option Nat) (within : Option Rat)
      (start : Option DateTimeUtc) (stop : Option DateTimeUtc)
  deriving DecidableEq, Repr

/-- `ParseError` from `src/parser.rs`. The `Grammar`, `InvalidInt` and
`InvalidFloat` payloads (external error types) are embedded as the text
they were raised on. -/
inductive ParseError where
  | grammar (msg : String)
  | invalidInt (msg : String)
  | invalidFloat (msg : String)
  | invalidTimestamp (s : String)
  | unexpectedRule (r : Rule)
  | missingElement (what : String)
  deriving DecidableEq, Repr

/-! ## String unescaping (`unescape_string`, src/parser.rs:363-386) -/

/-- Character-level body of `unescape_string`: walks the characters; on a
backslash it consumes the next character and maps the fixed escape set
(`\n`, `\r`, `\t`, `\\`, `\'`), preserves any other escaped character
together with its backslash, and keeps a trailing lone backslash. -/
def unescapeChars : List Char → List Char
  | [] => []
  | c :: rest =>
    if c = '\\' then
      match rest with
      | [] => ['\\']
      | c2 :: rest2 =>
        if c2 = 'n' then '\n' :: unescapeChars rest2
        else if c2 = 'r' then '\r' :: unescapeChars rest2
        else if c2 = 't' then '\t' :: unescapeChars rest2
        else if c2 = '\\' then '\\' :: unescapeChars rest2
        else if c2 = '\'' then '\'' :: unescapeChars rest2
        else '\\' :: c2 :: unescapeChars rest2
    else c :: unescapeChars rest

/-- `unescape_string` from `src/parser.rs` on the `String` level. -/
def unescape_string (s : String) : String :=
  ⟨unescapeChars s.data⟩

/-! ## Quote stripping (`strip_quotes`, src/parser.rs:267-272) -/

/-- `str::strip_prefix('\'')`: if the text starts with a quote, the rest. -/
def stripQuoteAtFront : List Char → Option (List Char)
  | '\'' :: rest => some rest
  | _ => none

/-- `str::strip_suffix('\'')`: if the text ends with a quote, the text
without it. -/
def stripQuoteAtBack (l : List Char) : Option (List Char) :=
  match l.getLast? with
  | some '\'' => some l.dropLast
  | _ => none

/-- `strip_quotes` from `src/parser.rs`: strip a leading quote, then a
trailing quote from the remainder; if either step fails return the input
unchanged. -/
def strip_quotes (s : String) : String :=
  ⟨((stripQuoteAtFront s.data).bind stripQuoteAtBack).getD s.data⟩

/-! ## Numeric literal parsing

`src/parser.rs` delegates integer and float literals to the Rust
standard library's `str::parse` (`u32`, `i64`, `f64`), which is external
to `src/`. The parsers below embed it for the literal forms the grammar
can produce, modelled from the spec: "Int/Float: delegate to standard
numeric parsing" (§4.2), with integers range-checked at their machine
width and decimal floats taken at their exact value. -/

def isAsciiDigit (c : Char) : Bool :=
  '0' ≤ c && c ≤ '9'

def digitVal (c : Char) : Nat :=
  c.toNat - '0'.toNat

def digitsVal (l : List Char) : Nat :=
  l.foldl (fun a c => a * 10 + digitVal c) 0

/-- Modelled from the spec: the standard `u32` parser (used for
`REPEATS` counts and list indices; not under `src/`) — an optional `+`
sign, one or more digits, value within `u32` range; failure is the
invalid-integer error carrying the literal text. -/
def parseU32 (s : String) : Except ParseError Nat :=
  let l := if s.data.head? = some '+' then s.data.tail else s.data
  if l ≠ [] ∧ l.all isAsciiDigit ∧ digitsVal l < 2 ^ 32 then
    .ok (digitsVal l)
  else
    .error (.invalidInt s)

/-- Modelled from the spec: the standard `i64` parser (not under
`src/`) — an optional sign, one or more digits, value within `i64`
range. -/
def parseI64 (s : String) : Except ParseError Int :=
  let (sign, l) : Int × List Char :=
    match s.data with
    | '+' :: rest => (1, rest)
    | '-' :: rest => (-1, rest)
    | l => (1, l)
  if l ≠ [] ∧ l.all isAsciiDigit ∧ sign * digitsVal l < 2 ^ 63 ∧
      -(2 ^ 63 : Int) ≤ sign * digitsVal l then
    .ok (sign * digitsVal l)
  else
    .error (.invalidInt s)

/-- Modelled from the spec: the standard `f64` parser (not under `src/`)
restricted to the decimal literal forms the grammar's `float` and
`pos_float` rules produce — optional sign, digits with an optional
fractional part — embedded as the literal's exact rational value. -/
def parseF64 (s : String) : Except ParseError Rat :=
  let (sign, l) : Rat × List Char :=
    match s.data with
    | '+' :: rest => (1, rest)
    | '-' :: rest => (-1, rest)
    | l => (1, l)
  let intPart := l.takeWhile isAsciiDigit
  let rest := l.dropWhile isAsciiDigit
  match rest with
  | [] =>
    if intPart ≠ [] then .ok (sign * digitsVal intPart) else .error (.invalidFloat s)
  | '.' :: frac =>
    if (intPart ≠ [] ∨ frac ≠ []) ∧ frac.all isAsciiDigit then
      .ok (sign * (digitsVal intPart + (digitsVal frac : Rat) / ((10 : Rat) ^ frac.length)))
    else
      .error (.invalidFloat s)
  | _ => .error (.invalidFloat s)

/-! ## Timestamp parsing (`parse_timestamp`, src/parser.rs:388-398)

`parse_timestamp` chains three parsers from the external `chrono` crate
(not under `src/`): `DateTime::parse_from_rfc3339`, then
`NaiveDateTime::parse_from_str` with `"%Y-%m-%dT%H:%M:%S"`, then with
`"%Y-%m-%dT%H:%M:%S%.f"`, the naive results interpreted as UTC.  The
three format parsers below are modelled from the spec (§4.2): a full
offset-aware RFC3339 timestamp, a seconds-resolution local format
assumed UTC, and a fractional-seconds local format assumed UTC, each
matching the whole text, validating calendar ranges, and normalized to a
UTC instant at microsecond resolution. -/

def isLeapYear (y : Int) : Bool :=
  y % 4 = 0 && (y % 100 ≠ 0 || y % 400 = 0)

def daysInMonth (y : Int) (m : Nat) : Nat :=
  if m = 2 then (if isLeapYear y then 29 else 28)
  else if m = 4 ∨ m = 6 ∨ m = 9 ∨ m = 11 then 30
  else 31

/-- Days from the Unix epoch to the given civil date (proleptic
Gregorian calendar). -/
def civilToDays (y : Int) (m d : Nat) : Int :=
  let yAdj : Int := if m ≤ 2 then y - 1 else y
  let era : Int := (if 0 ≤ yAdj then yAdj else yAdj - 399) / 400
  let yoe : Int := yAdj - era * 400
  let mp : Int := ((m : Int) + 9) % 12
  let doy : Int := (153 * mp + 2) / 5 + (d : Int) - 1
  let doe : Int := yoe * 365 + yoe / 4 - yoe / 100 + doy
  era * 146097 + doe - 719468

/-- Assemble a UTC instant from civil date, time of day, fractional
microseconds and a UTC offset in seconds. -/
def mkInstant (y : Int) (mo d h mi s : Nat) (fracMicros : Nat) (offSecs : Int) :
    DateTimeUtc :=
  ⟨(civilToDays y mo d * 86400 + (h * 3600 + mi * 60 + s : Nat) - offSecs) * 1000000
    + fracMicros⟩

/-- Read exactly `n` ASCII digits, accumulating their value. -/
def readDigits : Nat → Nat → List Char → Option (Nat × List Char)
  | 0, acc, l => some (acc, l)
  | n + 1, acc, c :: l =>
    if isAsciiDigit c then readDigits n (acc * 10 + digitVal c) l else none
  | _ + 1, _, [] => none

def expectChar (c : Char) : List Char → Option (List Char)
  | x :: l => if x = c then some l else none
  | [] => none

/-- Truncate a parsed fraction-digit list to microseconds (pad to six
digits; further digits are sub-microsecond and dropped). -/
def fracToMicros (ds : List Char) : Nat :=
  digitsVal ((ds ++ List.replicate 6 '0').take 6)

/-- Read the date-and-time prefix `YYYY-MM-DDTHH:MM:SS`, validating
calendar ranges. -/
def readDateTimeCore (l : List Char) : Option ((Int × Nat × Nat × Nat × Nat × Nat) × List Char) := do
  let (y, l) ← readDigits 4 0 l
  let l ← expectChar '-' l
  let (mo, l) ← readDigits 2 0 l
  let l ← expectChar '-' l
  let (d, l) ← readDigits 2 0 l
  let l ← expectChar 'T' l
  let (h, l) ← readDigits 2 0 l
  let l ← expectChar ':' l
  let (mi, l) ← readDigits 2 0 l
  let l ← expectChar ':' l
  let (s, l) ← readDigits 2 0 l
  if 1 ≤ mo ∧ mo ≤ 12 ∧ 1 ≤ d ∧ d ≤ daysInMonth y mo ∧ h ≤ 23 ∧ mi ≤ 59 ∧ s ≤ 59 then
    some ((y, mo, d, h, mi, s), l)
  else
    none

/-- Read an optional fraction `.d+`, yielding its microsecond value. -/
def readFraction (l : List Char) : Nat × List Char :=
  match l with
  | '.' :: rest =>
    let ds := rest.takeWhile isAsciiDigit
    if ds = [] then (0, l) else (fracToMicros ds, rest.dropWhile isAsciiDigit)
  | _ => (0, l)

/-- Read an RFC3339 offset: `Z` or `±HH:MM`, as seconds east of UTC. -/
def readOffset (l : List Char) : Option (Int × List Char) :=
  match l with
  | 'Z' :: rest => some (0, rest)
  | 'z' :: rest => some (0, rest)
  | c :: rest =>
    if c = '+' ∨ c = '-' then do
      let (oh, rest) ← readDigits 2 0 rest
      let rest ← expectChar ':' rest
      let (om, rest) ← readDigits 2 0 rest
      if oh ≤ 23 ∧ om ≤ 59 then
        some ((if c = '-' then -1 else 1) * ((oh * 3600 + om * 60 : Nat) : Int), rest)
      else none
    else none
  | [] => none

/-- Modelled from the spec: format (a), the full offset-aware RFC3339
parse (`chrono::DateTime::parse_from_rfc3339`, not under `src/`),
normalized to UTC. -/
def rfc3339ToUtc (s : String) : Option DateTimeUtc := do
  let ((y, mo, d, h, mi, sec), l) ← readDateTimeCore s.data
  let (fr, l) := readFraction l
  let (off, l) ← readOffset l
  if l = [] then some (mkInstant y mo d h mi sec fr off) else none

/-- Modelled from the spec: format (b), the seconds-resolution local
format `%Y-%m-%dT%H:%M:%S` assumed UTC
(`chrono::NaiveDateTime::parse_from_str` + `and_utc`, not under
`src/`). -/
def naiveSecondsToUtc (s : String) : Option DateTimeUtc := do
  let ((y, mo, d, h, mi, sec), l) ← readDateTimeCore s.data
  if l = [] then some (mkInstant y mo d h mi sec 0 0) else none

/-- Modelled from the spec: format (c), the fractional-seconds local
format `%Y-%m-%dT%H:%M:%S%.f` assumed UTC (the fraction is optional),
not under `src/`. -/
def naiveFractionalToUtc (s : String) : Option DateTimeUtc := do
  let ((y, mo, d, h, mi, sec), l) ← readDateTimeCore s.data
  let (fr, l) := readFraction l
  if l = [] then some (mkInstant y mo d h mi sec fr 0) else none

/-- `parse_timestamp` from `src/parser.rs`: try RFC3339, then the
seconds format, then the fractional format; the first success wins, and
if all fail the result is `InvalidTimestamp` carrying the original
text. -/
def parse_timestamp (s : String) : Except ParseError DateTimeUtc :=
  match rfc3339ToUtc s with
  | some t => .ok t
  | none =>
    match naiveSecondsToUtc s with
    | some t => .ok t
    | none =>
      match naiveFractionalToUtc s with
      | some t => .ok t
      | none => .error (.invalidTimestamp s)

/-! ## Leaf builders (src/parser.rs) -/

/-- `try_parse_comp_op` from `src/parser.rs`: map an operator rule to
its `ComparisonOp`, or `none` for any other rule. -/
def try_parse_comp_op (r : Rule) : Option ComparisonOp :=
  match r with
  | .equal => some .eq
  | .not_equal => some .neq
  | .gt => some .gt
  | .lt => some .lt
  | .ge => some .ge
  | .le => some .le
  | .inR => some .inOp
  | .like => some .like
  | .matchR => some .matches
  | .issubset => some .isSubset
  | .issuperset => some .isSuperset
  | _ => none

/-- `parse_obs_op` from `src/parser.rs`. -/
def parse_obs_op (p : Pair) : Except ParseError ObservationOp :=
  match p.rule with
  | .and => .ok .and
  | .or => .ok .or
  | .followedby => .ok .followedBy
  | r => .error (.unexpectedRule r)

/-- `merge_exprs` from `src/parser.rs`: fold step for chained
comparisons — with no accumulator the operand stands alone, otherwise it
is attached on the right under the pending combinator (defaulting to
`AND`). -/
def merge_exprs (left : Option ComparisonExpr) (right : ComparisonExpr)
    (op : Option BooleanOp) : ComparisonExpr :=
  match left with
  | none => right
  | some l => .composite l (op.getD .and) right

/-- `parse_value` from `src/parser.rs`: normalize the single inner
literal token of a `value` pair. -/
def parse_value (p : Pair) : Except ParseError StixValue :=
  match p.inner with
  | [] => .error (.missingElement "value content")
  | inner :: _ =>
    match inner.rule with
    | .string => .ok (.string (unescape_string inner.str))
    | .bool => .ok (.bool (inner.str = "true"))
    | .float => (parseF64 inner.str).map .float
    | .int => (parseI64 inner.str).map .int
    | .time => (parse_timestamp inner.str).map .timestamp
    | .hex => .ok (.hex inner.str)
    | .bin => .ok (.binary inner.str)
    | r => .error (.unexpectedRule r)

/-- `parse_list` from `src/parser.rs`: normalize every `value` child,
propagating the first error. -/
def parse_list (p : Pair) : Except ParseError (List StixValue) :=
  (p.inner.filter (fun q => q.rule == .value)).mapM parse_value

/-- `parse_step` from `src/parser.rs`: fold over the step's children,
taking the (quote-stripped) property name and the optional index (`*` or
a `u32`). -/
def stepGo : List Pair → String → Option ListIndex →
    Except ParseError PathComponent
  | [], property, index => .ok ⟨property, index⟩
  | x :: xs, property, index =>
    match x.rule with
    | .property => stepGo xs (strip_quotes x.str) index
    | .index =>
      if x.str = "*" then stepGo xs property (some .star)
      else
        match parseU32 x.str with
        | .ok i => stepGo xs property (some (.index i))
        | .error e => .error e
    | _ => stepGo xs property index

def parse_step (p : Pair) : Except ParseError PathComponent :=
  stepGo p.inner "" none

/-- `parse_object_path` from `src/parser.rs`: fold over the path's
children, taking the object-type text and appending each parsed step. -/
def pathGo : List Pair → String → List PathComponent →
    Except ParseError ObjectPath
  | [], object_type, acc => .ok ⟨object_type, acc⟩
  | x :: xs, object_type, acc =>
    match x.rule with
    | .object => pathGo xs x.str acc
    | .step =>
      match parse_step x with
      | .ok c => pathGo xs object_type (acc ++ [c])
      | .error e => .error e
    | _ => pathGo xs object_type acc

def parse_object_path (p : Pair) : Except ParseError ObjectPath :=
  pathGo p.inner "" []

/-- The loop of `parse_comparison`'s path branch (src/parser.rs:172-183):
fold over the children after the path, recording the negation flag, the
operator, and the rhs (a single value or a list). -/
def compTailGo : List Pair → Bool → Option ComparisonOp → Option ComparisonRhs →
    Except ParseError (Bool × Option ComparisonOp × Option ComparisonRhs)
  | [], negated, op, rhs => .ok (negated, op, rhs)
  | x :: xs, negated, op, rhs =>
    match x.rule with
    | .not => compTailGo xs true op rhs
    | .value =>
      match parse_value x with
      | .ok v => compTailGo xs negated op (some (.value v))
      | .error e => .error e
    | .list =>
      match parse_list x with
      | .ok vs => compTailGo xs negated op (some (.list vs))
      | .error e => .error e
    | r =>
      match try_parse_comp_op r with
      | some o => compTailGo xs negated (some o) rhs
      | none => compTailGo xs negated op rhs

/-! ## `parse_comparison` (src/parser.rs:131-191) -/

mutual

/-- `parse_comparison` from `src/parser.rs`: dispatch on the first inner
pair — a parenthesized comparison sequence (fold with
`merge_exprs`), an `EXISTS` comparison (rhs none), or a
`path [NOT] op value-or-list` comparison. -/
def parse_comparison (p : Pair) : Except ParseError ComparisonExpr :=
  match p with
  | .mk _ _ inner =>
    match inner with
    | [] => .error (.missingElement "comparison content")
    | first :: rest =>
      match first.rule with
      | .comparison =>
        match parenGo (first :: rest) none none with
        | .ok o =>
          match o with
          | some e => .ok e
          | none => .error (.missingElement "comparison")
        | .error e => .error e
      | .existsR =>
        match rest with
        | path_pair :: _ =>
          match parse_object_path path_pair with
          | .ok path => .ok (.single ⟨path, .unary .existsOp, none, false⟩)
          | .error e => .error e
        | [] => .error (.missingElement "path")
      | .path =>
        match parse_object_path first with
        | .ok path =>
          match compTailGo rest false none none with
          | .ok (negated, some op, rhs) =>
            .ok (.single ⟨path, .comparison op, rhs, negated⟩)
          | .ok (_, none, _) => .error (.missingElement "operator")
          | .error e => .error e
        | .error e => .error e
      | _ => .error (.missingElement "comparison content")
termination_by (sizeOf p, 1)

/-- The parenthesized-comparison loop of `parse_comparison`
(src/parser.rs:138-152): fold the `comparison` children with
`merge_exprs`, tracking the pending `AND`/`OR`. -/
def parenGo : List Pair → Option ComparisonExpr → Option BooleanOp →
    Except ParseError (Option ComparisonExpr)
  | [], acc, _ => .ok acc
  | x :: xs, acc, pending =>
    match x.rule with
    | .comparison =>
      match parse_comparison x with
      | .ok c => parenGo xs (some (merge_exprs acc c pending)) none
      | .error e => .error e
    | .and => parenGo xs acc (some .and)
    | .or => parenGo xs acc (some .or)
    | _ => parenGo xs acc pending
termination_by l _ _ => (sizeOf l, 0)

end

/-! ## Qualifiers (src/parser.rs:299-361) -/

/-- The `Qualifiers` accumulator record from `src/parser.rs`, all fields
defaulting to `none` (`repeat` is written `repeatN` for Lean). -/
structure Qualifiers where
  repeatN : Option Nat := none
  within : Option Rat := none
  start : Option DateTimeUtc := none
  stop : Option DateTimeUtc := none
  deriving DecidableEq, Repr

instance : Inhabited Qualifiers := ⟨{}⟩

/-- `Qualifiers::is_empty` from `src/parser.rs`. -/
def Qualifiers.is_empty (q : Qualifiers) : Bool :=
  q.repeatN.isNone && q.within.isNone && q.start.isNone && q.stop.isNone

/-- `Qualifiers::apply_to` from `src/parser.rs`: an empty record returns
the pattern unwrapped, otherwise the pattern is wrapped in a single
`QualifiedPattern` carrying the record's fields. -/
def Qualifiers.apply_to (q : Qualifiers) (pattern : PatternExpr) : PatternExpr :=
  if q.is_empty then pattern
  else .qualified pattern q.repeatN q.within q.start q.stop

/-- The `repeat` arm of `parse_qualifier`: every `pos_int` child writes
the parsed count. -/
def repeatGo : List Pair → Qualifiers → Except ParseError Qualifiers
  | [], q => .ok q
  | x :: xs, q =>
    if x.rule = .pos_int then
      match parseU32 x.str with
      | .ok n => repeatGo xs { q with repeatN := some n }
      | .error e => .error e
    else repeatGo xs q

/-- The `within` arm of `parse_qualifier`: every `pos_float`/`pos_int`
child writes the parsed seconds value. -/
def withinGo : List Pair → Qualifiers → Except ParseError Qualifiers
  | [], q => .ok q
  | x :: xs, q =>
    if x.rule = .pos_float ∨ x.rule = .pos_int then
      match parseF64 x.str with
      | .ok v => withinGo xs { q with within := some v }
      | .error e => .error e
    else withinGo xs q

/-- The `interval` arm of `parse_qualifier`: each `time` child is parsed
and written to `start` if `start` is still unset, otherwise to `stop`. -/
def intervalGo : List Pair → Qualifiers → Except ParseError Qualifiers
  | [], q => .ok q
  | x :: xs, q =>
    if x.rule = .time then
      match parse_timestamp x.str with
      | .ok ts =>
        if q.start.isNone then intervalGo xs { q with start := some ts }
        else intervalGo xs { q with stop := some ts }
      | .error e => .error e
    else intervalGo xs q

/-- `parse_qualifier` from `src/parser.rs`: dispatch on the qualifier's
single inner pair and populate the shared `Qualifiers` record (the
`&mut` accumulator is passed and returned explicitly). -/
def parse_qualifier (p : Pair) (q : Qualifiers) : Except ParseError Qualifiers :=
  match p.inner with
  | [] => .error (.missingElement "qualifier content")
  | inner :: _ =>
    match inner.rule with
    | .repeatR => repeatGo inner.inner q
    | .within => withinGo inner.inner q
    | .interval => intervalGo inner.inner q
    | _ => .ok q

/-! ## `parse_observation` (src/parser.rs:93-113) -/

/-- The loop of `parse_observation`: fold the children, merging
`comparison` results with `merge_exprs` under the pending `AND`/`OR`,
and accumulating qualifiers. -/
def obsGo : List Pair → Option ComparisonExpr → Option BooleanOp → Qualifiers →
    Except ParseError (Option ComparisonExpr × Qualifiers)
  | [], acc, _, q => .ok (acc, q)
  | x :: xs, acc, pending, q =>
    match x.rule with
    | .comparison =>
      match parse_comparison x with
      | .ok c => obsGo xs (some (merge_exprs acc c pending)) none q
      | .error e => .error e
    | .and => obsGo xs acc (some .and) q
    | .or => obsGo xs acc (some .or) q
    | .qualifier =>
      match parse_qualifier x q with
      | .ok q2 => obsGo xs acc pending q2
      | .error e => .error e
    | _ => obsGo xs acc pending q

/-- `parse_observation` from `src/parser.rs`: fold the children, require
a comparison expression, and apply the accumulated qualifiers. -/
def parse_observation (p : Pair) : Except ParseError PatternExpr :=
  match obsGo p.inner none none {} with
  | .ok (some e, q) => .ok (q.apply_to (.comparison e))
  | .ok (none, _) => .error (.missingElement "comparison")
  | .error e => .error e

/-! ## Top-level recursive dispatch (src/parser.rs:47-129) -/

mutual

/-- `parse_pair` from `src/parser.rs`: dispatch on the rule tag. -/
def parse_pair (p : Pair) : Except ParseError PatternExpr :=
  match p.rule with
  | .pattern => parse_pattern_rule p
  | .expression => parse_expression p
  | .observation => parse_observation p
  | .observation_group => parse_observation_group p
  | r => .error (.unexpectedRule r)
termination_by (sizeOf p, 2)

/-- `parse_pattern_rule` from `src/parser.rs`: parse the first
`expression` child, or fail with a missing-element error. -/
def parse_pattern_rule : Pair → Except ParseError PatternExpr
  | .mk _ _ inner => patternGo inner
termination_by p => (sizeOf p, 1)

/-- The `find`-then-parse of `parse_pattern_rule`: scan for the first
`expression` child. -/
def patternGo : List Pair → Except ParseError PatternExpr
  | [] => .error (.missingElement "expression")
  | x :: xs =>
    match x.rule with
    | .expression => parse_expression x
    | _ => patternGo xs
termination_by l => (sizeOf l, 0)

/-- `parse_expression` from `src/parser.rs`: parse the first operand,
then fold the remaining `(combinator, operand)` pairs left to right
around the accumulator. -/
def parse_expression (p : Pair) : Except ParseError PatternExpr :=
  match p with
  | .mk _ _ inner =>
    match inner with
    | [] => .error (.missingElement "expression")
    | first :: rest =>
      match parse_pair first with
      | .ok left => exprGo left rest
      | .error e => .error e
termination_by (sizeOf p, 1)

/-- The while-loop of `parse_expression`: consume a combinator pair and
a right operand, wrapping the accumulator in a `CompositePattern`. -/
def exprGo (left : PatternExpr) : List Pair → Except ParseError PatternExpr
  | [] => .ok left
  | op_pair :: rest =>
    match parse_obs_op op_pair with
    | .ok op =>
      match rest with
      | [] => .error (.missingElement "right operand")
      | right_pair :: rest2 =>
        match parse_pair right_pair with
        | .ok right => exprGo (.composite left op right) rest2
        | .error e => .error e
    | .error e => .error e
termination_by l => (sizeOf l, 0)

/-- `parse_observation_group` from `src/parser.rs`: fold the children,
parsing each `expression` child as the inner pattern and accumulating
qualifiers; require an inner pattern and apply the qualifiers. -/
def parse_observation_group : Pair → Except ParseError PatternExpr
  | .mk _ _ inner =>
    match ogGo inner none {} with
    | .ok (some pat, q) => .ok (q.apply_to pat)
    | .ok (none, _) => .error (.missingElement "expression")
    | .error e => .error e
termination_by p => (sizeOf p, 1)

/-- The loop of `parse_observation_group`. -/
def ogGo : List Pair → Option PatternExpr → Qualifiers →
    Except ParseError (Option PatternExpr × Qualifiers)
  | [], pat, q => .ok (pat, q)
  | x :: xs, pat, q =>
    match x.rule with
    | .expression =>
      match parse_expression x with
      | .ok e => ogGo xs (some e) q
      | .error e => .error e
    | .qualifier =>
      match parse_qualifier x q with
      | .ok q2 => ogGo xs pat q2
      | .error e => .error e
    | _ => ogGo xs pat q
termination_by l _ _ => (sizeOf l, 0)

end

/-- `parse_pattern` from `src/parser.rs`, given the concrete tree the
grammar recognizer produced for the input: hand the top pair to
`parse_pair` (the pest recognition step itself is outside `src/`). -/
def parse_pattern (pair : Pair) : Except ParseError PatternExpr :=
  parse_pair pair

/-! ## String-literal tokenization

Modelled from the spec: `grammar.pest` is not under `src/`, and the
spec states that string literal bodies are significant verbatim with
"only the delimiters stripped" (§4.1) and that string normalization
"strips surrounding quotes, then unescapes" (§4.2).  So the recognizer's
`string` token carries the literal's body between the two quote
delimiters, and the value builder unescapes that body
(`parse_value`, src/parser.rs:281). -/

/-- The body of a quoted string literal: the text between the leading
and the trailing quote delimiter. -/
def stringLiteralBody : List Char → Option (List Char)
  | '\'' :: rest =>
    if rest.getLast? = some '\'' then some rest.dropLast else none
  | _ => none

/-- End-to-end normalization of a string literal: strip the surrounding
quote delimiters, then unescape the body. -/
def normalize_string_literal (l : List Char) : Option (List Char) :=
  (stringLiteralBody l).map unescapeChars

/-- The characters that `unescape_string` recognizes after a
backslash. -/
def isEscapable (c : Char) : Bool :=
  c = 'n' || c = 'r' || c = 't' || c = '\\' || c = '\''

/-- Whether the text contains a recognized escape sequence: a backslash
immediately followed by one of `n`, `r`, `t`, `\`, `'`. -/
def hasRecognizedEscape : List Char → Bool
  | [] => false
  | [_] => false
  | a :: b :: rest => (a = '\\' && isEscapable b) || hasRecognizedEscape (b :: rest)

/-! ## The operator/rhs agreement invariant (spec §3) -/

/-- The spec's operator/rhs agreement for one `Comparison` node: an
`EXISTS` comparison has no rhs, a binary comparison has one. -/
def Comparison.rhsOk (c : Comparison) : Bool :=
  match c.op with
  | .unary _ => c.constant.isNone
  | .comparison _ => c.constant.isSome

/-- Every `Comparison` leaf of a comparison expression satisfies
`Comparison.rhsOk`. -/
def ComparisonExpr.rhsOk : ComparisonExpr → Bool
  | .single c => c.rhsOk
  | .composite l _ r => l.rhsOk && r.rhsOk

/-- Every `Comparison` leaf of a pattern expression satisfies
`Comparison.rhsOk`. -/
def PatternExpr.rhsOk : PatternExpr → Bool
  | .comparison e => e.rhsOk
  | .composite l _ r => l.rhsOk && r.rhsOk
  | .qualified p _ _ _ _ => p.rhsOk

/-- Shape of one concrete-tree node as guaranteed by the grammar for
binary comparisons.  Modelled from the spec: `grammar.pest` is not under
`src/`; §6's production `comparison := path ["NOT"] compOp rhs` with
`rhs := value | list` guarantees that a comparison node whose first
child is a `path` also carries a `value` or `list` child. -/
def binaryCompOk (p : Pair) : Bool :=
  if p.rule = .comparison then
    match p.inner.head? with
    | some q =>
      if q.rule = .path then
        p.inner.any fun x => x.rule = .value ∨ x.rule = .list
      else true
    | none => true
  else true

mutual

/-- `binaryCompOk` holds at every node of the concrete tree. -/
def grammarRhsOk : Pair → Bool
  | .mk r s inner => binaryCompOk (.mk r s inner) && grammarRhsOkList inner

def grammarRhsOkList : List Pair → Bool
  | [] => true
  | x :: xs => grammarRhsOk x && grammarRhsOkList xs

end

/-! ## Concrete trees used by the claims -/

/-- Concrete tree of a single observation `[file:name = 'foo']`. -/
def obsFixture : Pair :=
  .mk .observation "[file:name = 'foo']"
    [.mk .comparison "file:name = 'foo'"
      [.mk .path "file:name"
        [.mk .object "file" [], .mk .step "name" [.mk .property "name" []]],
       .mk .equal "=" [],
       .mk .value "'foo'" [.mk .string "foo" []]]]

/-- The AST of `obsFixture`. -/
def obsFixtureAst : PatternExpr :=
  .comparison (.single ⟨⟨"file", [⟨"name", none⟩]⟩, .comparison .eq,
    some (.value (.string "foo")), false⟩)

/-- An observation group `( … )` nested `n` levels around `obsFixture`,
one `expression` node per level — the concrete tree pest produces for
input with `n` nested parentheses. -/
def nestPair : Nat → Pair
  | 0 => obsFixture
  | n + 1 => .mk .observation_group "" [.mk .expression "" [nestPair n]]

/-- A `START <s1> STOP <s2>` qualifier clause's concrete tree. -/
def intervalQualPair (s1 s2 : String) : Pair :=
  .mk .qualifier "" [.mk .interval "" [.mk .time s1 [], .mk .time s2 []]]

/-- Concrete tree of an observation `[<o>:<pr> = <sv>]` with an integer
literal. -/
def obsNum (o pr sv : String) : Pair :=
  .mk .observation "" [.mk .comparison ""
    [.mk .path "" [.mk .object o [], .mk .step "" [.mk .property pr []]],
     .mk .equal "=" [], .mk .value "" [.mk .int sv []]]]

/-- The AST of `obsNum o pr sv` when `sv` denotes `v`. -/
def obsNumAst (o pr : String) (v : Int) : PatternExpr :=
  .comparison (.single ⟨⟨o, [⟨pr, none⟩]⟩, .comparison .eq,
    some (.value (.int v)), false⟩)

/-- Concrete tree of the observation `[EXISTS file:name]`. -/
def existsObs : Pair :=
  .mk .observation "[EXISTS file:name]" [.mk .comparison "EXISTS file:name"
    [.mk .existsR "EXISTS" [],
     .mk .path "file:name"
       [.mk .object "file" [], .mk .step "name" [.mk .property "name" []]]]]

/-- The AST of `existsObs`. -/
def existsObsAst : PatternExpr :=
  .comparison (.single ⟨⟨"file", [⟨"name", none⟩]⟩, .unary .existsOp, none, false⟩)

/-! ## The spec's fold algorithm (§4.4)

The two `specFold…` functions below are written from the spec's words —
"start with `accumulator = first operand`; for every subsequent pair,
`accumulator = Composite(accumulator, pending_combinator, operand)`" —
to be compared against the builders embedded from the source. -/

/-- The spec's left fold at the pattern/observation level. -/
def specFoldPatterns (left : PatternExpr) :
    List (ObservationOp × PatternExpr) → PatternExpr
  | [] => left
  | (op, rhs) :: rest => specFoldPatterns (.composite left op rhs) rest

/-- The spec's left fold at the comparison level. -/
def specFoldComparisons (left : ComparisonExpr) :
    List (BooleanOp × ComparisonExpr) → ComparisonExpr
  | [] => left
  | (op, rhs) :: rest => specFoldComparisons (.composite left op rhs) rest

/-- The trailing children of an `expression` node parse, pairwise, to
the given `(combinator, operand)` steps. -/
def stepsParse : List Pair → List (ObservationOp × PatternExpr) → Prop
  | [], [] => True
  | opP :: rhsP :: restP, (op, a) :: rest =>
    parse_obs_op opP = .ok op ∧ parse_pair rhsP = .ok a ∧ stepsParse restP rest
  | _, _ => False

/-- The trailing children of an observation's comparison sequence parse,
pairwise, to the given `(combinator, operand)` steps. -/
def compStepsParse : List Pair → List (BooleanOp × ComparisonExpr) → Prop
  | [], [] => True
  | opP :: cP :: restP, (op, a) :: rest =>
    ((opP.rule = .and ∧ op = .and) ∨ (opP.rule = .or ∧ op = .or)) ∧
    cP.rule = .comparison ∧ parse_comparison cP = .ok a ∧ compStepsParse restP rest
  | _, _ => False

/-- An observation node with no children: its builder fails with the
missing-comparison error. -/
def badObs : Pair := .mk .observation "" []

/-- A node whose rule the dispatcher does not handle: its builder fails
with a different error than `badObs`. -/
def badValue : Pair := .mk .value "" []

/-! # Theorems -/

@[simp] theorem Pair.rule_mk (r : Rule) (s : String) (i : List Pair) :
    (Pair.mk r s i).rule = r := rfl

@[simp] theorem Pair.str_mk (r : Rule) (s : String) (i : List Pair) :
    (Pair.mk r s i).str = s := rfl

@[simp] theorem Pair.inner_mk (r : Rule) (s : String) (i : List Pair) :
    (Pair.mk r s i).inner = i := rfl

/-! ## C6 — string unescaping and quote stripping -/

/-- C6: string-literal normalization maps the fixed escape set `\n`,
`\r`, `\t`, `\\`, `\'` to newline, carriage return, tab, backslash and
quote; preserves any other backslash-escaped character literally
including its backslash (unescaping never fails — it is a total
function); keeps a trailing unterminated backslash as-is; copies
non-backslash characters unchanged; and the surrounding quote
delimiters of the literal are stripped. -/
theorem claim_C6 :
    (∀ rest, unescapeChars ('\\' :: 'n' :: rest) = '\n' :: unescapeChars rest) ∧
    (∀ rest, unescapeChars ('\\' :: 'r' :: rest) = '\r' :: unescapeChars rest) ∧
    (∀ rest, unescapeChars ('\\' :: 't' :: rest) = '\t' :: unescapeChars rest) ∧
    (∀ rest, unescapeChars ('\\' :: '\\' :: rest) = '\\' :: unescapeChars rest) ∧
    (∀ rest, unescapeChars ('\\' :: '\'' :: rest) = '\'' :: unescapeChars rest) ∧
    (∀ c rest, c ∉ (['n', 'r', 't', '\\', '\''] : List Char) →
      unescapeChars ('\\' :: c :: rest) = '\\' :: c :: unescapeChars rest) ∧
    unescapeChars ['\\'] = ['\\'] ∧
    (∀ c rest, c ≠ '\\' → unescapeChars (c :: rest) = c :: unescapeChars rest) ∧
    (∀ body, normalize_string_literal ('\'' :: (body ++ ['\''])) =
      some (unescapeChars body)) := by
  refine ⟨?_, ?_, ?_, ?_, ?_, ?_, ?_, ?_, ?_⟩
  · intro rest; simp [unescapeChars]
  · intro rest; simp [unescapeChars]
  · intro rest; simp [unescapeChars]
  · intro rest; simp [unescapeChars]
  · intro rest; simp [unescapeChars]
  · intro c rest hc
    simp only [List.mem_cons, List.not_mem_nil, or_false, not_or] at hc
    obtain ⟨h1, h2, h3, h4, h5⟩ := hc
    simp [unescapeChars, h1, h2, h3, h4, h5]
  · rfl
  · intro c rest hc
    rw [unescapeChars.eq_def]
    simp [hc]
  · intro body
    simp [normalize_string_literal, stringLiteralBody, List.getLast?_concat,
      List.dropLast_concat]

/-- Witness for C6: the escaped-other-character case at `c = 'x'`. -/
theorem claim_C6_witness :
    ('x' ∉ (['n', 'r', 't', '\\', '\''] : List Char)) ∧
    unescapeChars ['\\', 'x'] = ['\\', 'x'] :=
  ⟨by decide, claim_C6.2.2.2.2.2.1 'x' [] (by decide)⟩

/-! ## C7 — idempotence of unescaping -/

/-- C7 counterexample: `unescape_string` is not idempotent on its own
output.  On the input text `\\n` (backslash, backslash, `n`) the first
application yields the two characters backslash, `n`, and applying the
function to that output collapses them further to a newline, so
applying the unescape function to its own output does not always return
the output unchanged. -/
theorem claim_C7_counterexample :
    unescapeChars (unescapeChars ['\\', '\\', 'n']) ≠ unescapeChars ['\\', '\\', 'n'] := by
  decide

/-- C7 (amended): unescaping is idempotent on text containing no
recognized escape sequence — no backslash immediately followed by one
of `n`, `r`, `t`, `\`, `'` — (such text is returned unchanged, so on it
the function is its own fixed point), and it round-trips literal
backslash-quote pairs: the literal `'a\'b'` normalizes to the value
`a'b`. -/
theorem claim_C7_amended :
    (∀ l, hasRecognizedEscape l = false → unescapeChars l = l) ∧
    normalize_string_literal ['\'', 'a', '\\', '\'', 'b', '\''] =
      some ['a', '\'', 'b'] := by
  constructor
  · have key : ∀ n l, List.length l ≤ n → hasRecognizedEscape l = false →
        unescapeChars l = l := by
      intro n
      induction n with
      | zero =>
        intro l hl _
        rw [Nat.le_zero, List.length_eq_zero] at hl
        subst hl
        rfl
      | succ n ih =>
        intro l hl h
        match l with
        | [] => rfl
        | [a] =>
          by_cases ha : a = '\\'
          · subst ha; rfl
          · rw [unescapeChars.eq_def]; simp [ha, unescapeChars]
        | a :: b :: rest =>
          rw [hasRecognizedEscape, Bool.or_eq_false_iff, Bool.and_eq_false_iff] at h
          obtain ⟨h1, h2⟩ := h
          have hlen : List.length (b :: rest) ≤ n := by
            simp only [List.length_cons] at hl ⊢
            omega
          have hbr := ih (b :: rest) hlen h2
          by_cases ha : a = '\\'
          · subst ha
            have hesc : isEscapable b = false := by
              rcases h1 with h1 | h1
              · simp at h1
              · exact h1
            have hb : b ≠ '\\' := by
              intro hb
              rw [hb] at hesc
              simp [isEscapable] at hesc
            have hrest : unescapeChars rest = rest := by
              rw [unescapeChars.eq_def] at hbr
              simp only [hb, if_false, List.cons.injEq, true_and] at hbr
              exact hbr
            simp only [isEscapable, Bool.or_eq_false_iff,
              decide_eq_false_iff_not] at hesc
            obtain ⟨⟨⟨⟨hn', hr'⟩, ht'⟩, hbs'⟩, hq'⟩ := hesc
            rw [unescapeChars.eq_def]
            simp [hn', hr', ht', hbs', hq', hrest]
          · rw [unescapeChars.eq_def]
            simp only [ha, if_false]
            rw [hbr]
    intro l
    exact key l.length l (Nat.le_refl _)
  · decide

/-- Witness for C7 (amended): escape-free text is a fixed point. -/
theorem claim_C7_amended_witness :
    hasRecognizedEscape ['a', 'b'] = false ∧ unescapeChars ['a', 'b'] = ['a', 'b'] :=
  ⟨by decide, claim_C7_amended.1 ['a', 'b'] (by decide)⟩

/-! ## C10 — property-name quote stripping -/

/-- C10: `strip_quotes` strips surrounding quotes exactly when the text
decomposes as a quote, a body, and a closing quote (in particular it
both begins and ends with a quote character and the two are distinct
characters of the text); any other text — only a leading quote, only a
trailing quote, or no quotes — is returned unchanged, and `parse_step`
stores the quote-stripped property name in the `PathComponent`. -/
theorem claim_C10 : ∀ s : String,
    (∀ inner : List Char, s.data = '\'' :: (inner ++ ['\'']) →
      (strip_quotes s).data = inner) ∧
    ((¬ ∃ inner : List Char, s.data = '\'' :: (inner ++ ['\''])) →
      strip_quotes s = s) ∧
    (∀ r str t, parse_step (.mk r str [.mk .property t []]) =
      .ok ⟨strip_quotes t, none⟩) := by
  intro s
  obtain ⟨l⟩ := s
  refine ⟨?_, ?_, ?_⟩
  · intro inner h
    replace h : l = '\'' :: (inner ++ ['\'']) := h
    subst h
    simp [strip_quotes, stripQuoteAtFront, stripQuoteAtBack, List.getLast?_concat,
      List.dropLast_concat]
  · intro h
    match l with
    | [] => rfl
    | c :: rest =>
      by_cases hc : c = '\''
      · subst hc
        have hlast : rest.getLast? ≠ some '\'' := by
          intro hl
          have hne : rest ≠ [] := by
            intro he
            rw [he] at hl
            simp at hl
          have hdec : rest.dropLast ++ [rest.getLast hne] = rest :=
            List.dropLast_append_getLast hne
          have hlv : rest.getLast hne = '\'' := by
            have := List.getLast?_eq_getLast rest hne
            rw [this] at hl
            exact Option.some.inj hl
          have hr : rest = rest.dropLast ++ ['\''] := by
            conv_lhs => rw [← hdec]
            rw [hlv]
          exact h ⟨rest.dropLast, show '\'' :: rest = _ by conv_lhs => rw [hr]⟩
        show strip_quotes ⟨'\'' :: rest⟩ = _
        simp [strip_quotes, stripQuoteAtFront, stripQuoteAtBack, hlast]
      · show strip_quotes ⟨c :: rest⟩ = _
        simp [strip_quotes, stripQuoteAtFront, hc]
  · intro r str t
    simp [parse_step, stepGo]

/-- Witness for C10: quotes stripped on `'ab'`, text without a closing
quote kept unchanged. -/
theorem claim_C10_witness :
    (strip_quotes ⟨['\'', 'a', 'b', '\'']⟩).data = ['a', 'b'] :=
  (claim_C10 ⟨['\'', 'a', 'b', '\'']⟩).1 ['a', 'b'] (by decide)

/-! ## C4 — qualifier wrapping -/

/-- C4: an empty qualifier record returns the observation's pattern
unwrapped; a non-empty record wraps it in exactly one
`QualifiedPattern` whose fields are the record's fields (unset fields
stay `none`); and every successfully parsed observation is exactly the
accumulated record applied to the collected comparison expression. -/
theorem claim_C4 : ∀ (q : Qualifiers) (p : PatternExpr),
    (q.is_empty = true → q.apply_to p = p) ∧
    (q.is_empty = false →
      q.apply_to p = .qualified p q.repeatN q.within q.start q.stop) ∧
    (∀ pr a, parse_observation pr = .ok a →
      ∃ e qr, obsGo pr.inner none none {} = .ok (some e, qr) ∧
        a = qr.apply_to (.comparison e)) := by
  intro q p
  refine ⟨?_, ?_, ?_⟩
  · intro h
    simp [Qualifiers.apply_to, h]
  · intro h
    simp [Qualifiers.apply_to, h]
  · intro pr a h
    rw [parse_observation] at h
    split at h
    next e qr heq =>
      exact ⟨e, qr, heq, (Except.ok.inj h).symm⟩
    next => exact absurd h (by simp)
    next => exact absurd h (by simp)

/-- Witness for C4: the empty record leaves the fixture pattern bare, a
repeat-only record wraps it once with the other fields `none`. -/
theorem claim_C4_witness :
    (Qualifiers.apply_to {} obsFixtureAst = obsFixtureAst) ∧
    (Qualifiers.apply_to { repeatN := some 5 } obsFixtureAst =
      .qualified obsFixtureAst (some 5) none none none) :=
  ⟨(claim_C4 {} obsFixtureAst).1 (by decide),
   (claim_C4 { repeatN := some 5 } obsFixtureAst).2.1 (by decide)⟩

/-! ## C3 — timestamp normalization -/

/-- C3: `parse_timestamp` tries exactly the three formats in order —
RFC3339, the seconds-resolution local format assumed UTC, the
fractional-seconds local format assumed UTC — returning the first
successful parse (a UTC instant); when all three fail it returns
`InvalidTimestamp` carrying the original text; and
`"2021-01-01T00:00:00Z"` and `"2021-01-01T00:00:00"` both succeed and
denote the same UTC instant. -/
theorem claim_C3 :
    (∀ s t, rfc3339ToUtc s = some t → parse_timestamp s = .ok t) ∧
    (∀ s t, rfc3339ToUtc s = none → naiveSecondsToUtc s = some t →
      parse_timestamp s = .ok t) ∧
    (∀ s t, rfc3339ToUtc s = none → naiveSecondsToUtc s = none →
      naiveFractionalToUtc s = some t → parse_timestamp s = .ok t) ∧
    (∀ s, rfc3339ToUtc s = none → naiveSecondsToUtc s = none →
      naiveFractionalToUtc s = none →
      parse_timestamp s = .error (.invalidTimestamp s)) ∧
    (parse_timestamp "2021-01-01T00:00:00Z" = .ok ⟨1609459200000000⟩ ∧
     parse_timestamp "2021-01-01T00:00:00" = .ok ⟨1609459200000000⟩) := by
  refine ⟨?_, ?_, ?_, ?_, by constructor <;> rfl⟩
  · intro s t h
    simp [parse_timestamp, h]
  · intro s t h1 h2
    simp [parse_timestamp, h1, h2]
  · intro s t h1 h2 h3
    simp [parse_timestamp, h1, h2, h3]
  · intro s h1 h2 h3
    simp [parse_timestamp, h1, h2, h3]

/-- Witness for C3: the all-formats-fail case at the text `bogus`. -/
theorem claim_C3_witness :
    parse_timestamp "bogus" = .error (.invalidTimestamp "bogus") :=
  claim_C3.2.2.2.1 "bogus" (by rfl) (by rfl) (by rfl)

/-! ## C5 — qualifier clause accumulation -/

/-- C5 counterexample: with two `START … STOP …` clauses on the same
observation the `start` field is specified twice, but the last writer
does not win for it.  Processing
`START 2021-01-01 STOP 2021-01-02` then `START 2023-01-01 STOP 2023-01-02`
leaves `start` at the first clause's first timestamp (the 2021 instant),
not at the last clause's `START` timestamp (the 2023-01-01 instant,
which instead overwrites `stop` before `2023-01-02` does). -/
theorem claim_C5_counterexample :
    ((parse_qualifier
        (intervalQualPair "2021-01-01T00:00:00Z" "2021-01-02T00:00:00Z") {}).bind
      (parse_qualifier
        (intervalQualPair "2023-01-01T00:00:00Z" "2023-01-02T00:00:00Z"))) =
      .ok { start := some ⟨1609459200000000⟩, stop := some ⟨1672617600000000⟩ } ∧
    parse_timestamp "2023-01-01T00:00:00Z" = .ok ⟨1672531200000000⟩ ∧
    (⟨1609459200000000⟩ : DateTimeUtc) ≠ ⟨1672531200000000⟩ :=
  ⟨by rfl, by rfl, by decide⟩

/-- C5 (amended): a single `START`/`STOP` interval clause on a record
with no start yet assigns its two timestamps in encounter order (first
to start, second to stop) with no chronological validation; `REPEATS`
and `WITHIN` clauses follow last-writer-wins (each overwrites its field
whatever the record held); but interval clauses do not follow
last-writer-wins per field: once start is set, every further interval
timestamp — including a later clause's `START` timestamp — overwrites
stop, and start keeps the first timestamp ever seen.  No clause is
rejected. -/
theorem claim_C5_amended :
    (∀ str s1 s2 t1 t2, parse_timestamp s1 = .ok t1 → parse_timestamp s2 = .ok t2 →
      parse_qualifier
        (.mk .qualifier str [.mk .interval str [.mk .time s1 [], .mk .time s2 []]]) {} =
        .ok { start := some t1, stop := some t2 }) ∧
    (∀ (q : Qualifiers) str sn n, parseU32 sn = .ok n →
      parse_qualifier (.mk .qualifier str [.mk .repeatR str [.mk .pos_int sn []]]) q =
        .ok { q with repeatN := some n }) ∧
    (∀ (q : Qualifiers) str sv v, parseF64 sv = .ok v →
      parse_qualifier (.mk .qualifier str [.mk .within str [.mk .pos_float sv []]]) q =
        .ok { q with within := some v }) ∧
    (∀ (q : Qualifiers) t0 str s1 s2 t1 t2, q.start = some t0 →
      parse_timestamp s1 = .ok t1 → parse_timestamp s2 = .ok t2 →
      parse_qualifier
        (.mk .qualifier str [.mk .interval str [.mk .time s1 [], .mk .time s2 []]]) q =
        .ok { q with stop := some t2 }) := by
  refine ⟨?_, ?_, ?_, ?_⟩
  · intro str s1 s2 t1 t2 h1 h2
    simp [parse_qualifier, intervalGo, h1, h2]
  · intro q str sn n h
    simp [parse_qualifier, repeatGo, h]
  · intro q str sv v h
    simp [parse_qualifier, withinGo, h]
  · intro q t0 str s1 s2 t1 t2 hq h1 h2
    simp [parse_qualifier, intervalGo, h1, h2, hq]

/-- Witness for C5 (amended): a single interval clause whose `START`
timestamp is chronologically after its `STOP` timestamp is accepted,
the two timestamps assigned in encounter order. -/
theorem claim_C5_amended_witness :
    parse_qualifier
      (.mk .qualifier "" [.mk .interval ""
        [.mk .time "2023-01-01T00:00:00Z" [], .mk .time "2021-01-01T00:00:00Z" []]]) {} =
      .ok { start := some ⟨1672531200000000⟩, stop := some ⟨1609459200000000⟩ } :=
  claim_C5_amended.1 "" "2023-01-01T00:00:00Z" "2021-01-01T00:00:00Z" _ _ rfl rfl

/-! ## C2 — strict left associativity of the combinator folds -/

/-- The while-loop of `parse_expression` realizes the spec's left fold:
each `(combinator, operand)` pair wraps the accumulator. -/
theorem exprGo_fold : ∀ steps lp left, stepsParse lp steps →
    exprGo left lp = .ok (specFoldPatterns left steps) := by
  intro steps
  induction steps with
  | nil =>
    intro lp left h
    match lp with
    | [] => simp [exprGo, specFoldPatterns]
    | [x] => exact absurd h (by simp [stepsParse])
    | x :: y :: xs => exact absurd h (by simp [stepsParse])
  | cons hd rest ih =>
    obtain ⟨op, a⟩ := hd
    intro lp left h
    match lp with
    | [] => exact absurd h (by simp [stepsParse])
    | [x] => exact absurd h (by simp [stepsParse])
    | opP :: rhsP :: restP =>
      obtain ⟨h1, h2, h3⟩ := h
      simp only [exprGo, h1, h2, specFoldPatterns]
      exact ih restP (.composite left op a) h3

/-- The loop of `parse_observation` realizes the spec's left fold at the
comparison level through `merge_exprs` and the pending combinator. -/
theorem obsGo_fold : ∀ steps lp acc, compStepsParse lp steps →
    obsGo lp (some acc) none {} = .ok (some (specFoldComparisons acc steps), {}) := by
  intro steps
  induction steps with
  | nil =>
    intro lp acc h
    match lp with
    | [] => rfl
    | [x] => exact absurd h (by simp [compStepsParse])
    | x :: y :: xs => exact absurd h (by simp [compStepsParse])
  | cons hd rest ih =>
    obtain ⟨op, a⟩ := hd
    intro lp acc h
    match lp with
    | [] => exact absurd h (by simp [compStepsParse])
    | [x] => exact absurd h (by simp [compStepsParse])
    | opP :: cP :: restP =>
      obtain ⟨h1, h2, h3, h4⟩ := h
      rcases h1 with ⟨hr, ho⟩ | ⟨hr, ho⟩ <;>
        subst ho <;>
        simp only [obsGo, hr, h2, h3, merge_exprs, specFoldComparisons] <;>
        exact ih restP _ h4

/-- C2: both combinator folds are strictly left-associative with no
precedence distinction among the combinators — the first operand is the
accumulator and every subsequent `(combinator, operand)` pair wraps it,
at the observation level (`parse_expression`) and at the comparison
level (`parse_observation`'s loop). -/
theorem claim_C2 :
    (∀ (r : Rule) (s : String) first rest A steps, parse_pair first = .ok A →
      stepsParse rest steps →
      parse_expression (.mk r s (first :: rest)) = .ok (specFoldPatterns A steps)) ∧
    (∀ (cP : Pair) (A : ComparisonExpr) lp steps, cP.rule = .comparison →
      parse_comparison cP = .ok A → compStepsParse lp steps →
      obsGo (cP :: lp) none none {} =
        .ok (some (specFoldComparisons A steps), {})) := by
  constructor
  · intro r s first rest A steps hA hsteps
    simp only [parse_expression, hA]
    exact exprGo_fold steps rest A hsteps
  · intro cP A lp steps hr hA hsteps
    simp only [obsGo, hr, hA, merge_exprs]
    exact obsGo_fold steps lp A hsteps

/-- Witness for C2: `[a:b = 1] AND [b:c = 2] OR [c:d = 3]` parses to the
left-associative `CompositePattern(CompositePattern(a, AND, b), OR, c)`,
which differs from the right-associative alternative. -/
theorem claim_C2_witness :
    parse_expression (.mk .expression "" [obsNum "a" "b" "1", .mk .and "AND" [],
      obsNum "b" "c" "2", .mk .or "OR" [], obsNum "c" "d" "3"]) =
      .ok (.composite (.composite (obsNumAst "a" "b" 1) .and (obsNumAst "b" "c" 2)) .or
        (obsNumAst "c" "d" 3)) ∧
    (PatternExpr.composite
      (.composite (obsNumAst "a" "b" 1) .and (obsNumAst "b" "c" 2)) .or
      (obsNumAst "c" "d" 3) ≠
     PatternExpr.composite (obsNumAst "a" "b" 1) .and
      (.composite (obsNumAst "b" "c" 2) .or (obsNumAst "c" "d" 3))) := by
  constructor
  · have h1 : parse_pair (obsNum "a" "b" "1") = .ok (obsNumAst "a" "b" 1) := by
      simp [obsNum, obsNumAst, parse_pair, parse_observation, obsGo, parse_comparison,
        compTailGo, parse_object_path, pathGo, parse_step, stepGo, strip_quotes,
        stripQuoteAtFront, stripQuoteAtBack, parse_value, parseI64, digitsVal, digitVal,
        isAsciiDigit, try_parse_comp_op, merge_exprs, Qualifiers.apply_to,
        Qualifiers.is_empty, Except.map]
    have h2 : parse_pair (obsNum "b" "c" "2") = .ok (obsNumAst "b" "c" 2) := by
      simp [obsNum, obsNumAst, parse_pair, parse_observation, obsGo, parse_comparison,
        compTailGo, parse_object_path, pathGo, parse_step, stepGo, strip_quotes,
        stripQuoteAtFront, stripQuoteAtBack, parse_value, parseI64, digitsVal, digitVal,
        isAsciiDigit, try_parse_comp_op, merge_exprs, Qualifiers.apply_to,
        Qualifiers.is_empty, Except.map]
    have h3 : parse_pair (obsNum "c" "d" "3") = .ok (obsNumAst "c" "d" 3) := by
      simp [obsNum, obsNumAst, parse_pair, parse_observation, obsGo, parse_comparison,
        compTailGo, parse_object_path, pathGo, parse_step, stepGo, strip_quotes,
        stripQuoteAtFront, stripQuoteAtBack, parse_value, parseI64, digitsVal, digitVal,
        isAsciiDigit, try_parse_comp_op, merge_exprs, Qualifiers.apply_to,
        Qualifiers.is_empty, Except.map]
    have := claim_C2.1 .expression "" (obsNum "a" "b" "1")
      [.mk .and "AND" [], obsNum "b" "c" "2", .mk .or "OR" [], obsNum "c" "d" "3"]
      (obsNumAst "a" "b" 1)
      [(.and, obsNumAst "b" "c" 2), (.or, obsNumAst "c" "d" 3)]
      h1 ⟨rfl, h2, rfl, h3, trivial⟩
    simpa [specFoldPatterns] using this
  · decide

/-! ## C8 — all-or-nothing result, first error wins -/

/-- C8: the top-level parse returns either a fully built AST or a single
error — the first one encountered: a failing first operand's error is
the whole expression's error whatever follows, and a failing right
operand's error is propagated unchanged from the fold. -/
theorem claim_C8 :
    (∀ p, (∃ a, parse_pattern p = .ok a) ∨ (∃ e, parse_pattern p = .error e)) ∧
    (∀ (r : Rule) (s : String) first rest e, parse_pair first = .error e →
      parse_expression (.mk r s (first :: rest)) = .error e) ∧
    (∀ left opP rhsP rest op e, parse_obs_op opP = .ok op →
      parse_pair rhsP = .error e → exprGo left (opP :: rhsP :: rest) = .error e) := by
  refine ⟨?_, ?_, ?_⟩
  · intro p
    match h : parse_pair p with
    | .ok a => exact .inl ⟨a, h⟩
    | .error e => exact .inr ⟨e, h⟩
  · intro r s first rest e h
    simp only [parse_expression, h]
  · intro left opP rhsP rest op e h1 h2
    simp only [exprGo, h1, h2]

/-- Witness for C8: an expression whose first operand fails with the
missing-comparison error and whose later operand would fail with a
different error reports exactly the first error. -/
theorem claim_C8_witness :
    parse_pair badObs = .error (.missingElement "comparison") ∧
    parse_pair badValue = .error (.unexpectedRule .value) ∧
    parse_expression (.mk .expression "" [badObs, .mk .and "AND" [], badValue]) =
      .error (.missingElement "comparison") := by
  have h1 : parse_pair badObs = .error (.missingElement "comparison") := by
    simp [badObs, parse_pair, parse_observation, obsGo]
  have h2 : parse_pair badValue = .error (.unexpectedRule .value) := by
    simp [badValue, parse_pair]
  exact ⟨h1, h2, claim_C8.2.1 .expression "" badObs [.mk .and "AND" [], badValue] _ h1⟩

/-! ## C9 — no maximum-nesting-depth guard -/

/-- Parsing succeeds through one observation-group wrapper. -/
theorem parse_group_ok : ∀ (s s2 : String) (p : Pair) (a : PatternExpr),
    parse_pair p = .ok a →
    parse_pair (.mk .observation_group s [.mk .expression s2 [p]]) = .ok a := by
  intro s s2 p a h
  rw [parse_pair.eq_def]
  simp only [Pair.rule_mk]
  rw [parse_observation_group]
  simp only [ogGo, Pair.rule_mk, parse_expression, h, exprGo]
  simp [Qualifiers.apply_to, Qualifiers.is_empty]

/-- The base observation parses. -/
theorem parse_obsFixture_ok : parse_pair obsFixture = .ok obsFixtureAst := by
  simp [obsFixture, obsFixtureAst, parse_pair, parse_observation, obsGo, parse_comparison,
    compTailGo, parse_object_path, pathGo, parse_step, stepGo, strip_quotes,
    stripQuoteAtFront, stripQuoteAtBack, parse_value, unescape_string, unescapeChars,
    try_parse_comp_op, merge_exprs, Qualifiers.apply_to, Qualifiers.is_empty]

/-- Parsing succeeds at every nesting depth. -/
theorem parse_nest_ok : ∀ n, parse_pair (nestPair n) = .ok obsFixtureAst := by
  intro n
  induction n with
  | zero => exact parse_obsFixture_ok
  | succ n ih => exact parse_group_ok "" "" (nestPair n) obsFixtureAst ih

/-- C9 counterexample: the parser has no maximum-nesting-depth guard —
there is no bound beyond which more deeply nested input fails: at every
depth the builders return the nested pattern's AST, never an error. -/
theorem claim_C9_counterexample :
    ¬ ∃ B : Nat, ∀ n, B < n → ∃ e, parse_pair (nestPair n) = .error e := by
  rintro ⟨B, hB⟩
  obtain ⟨e, he⟩ := hB (B + 1) (Nat.lt_succ_self B)
  rw [parse_nest_ok] at he
  exact Except.noConfusion he

/-- C9 (amended): the builders impose no explicit
maximum-nesting-depth guard: input of every nesting depth is parsed
successfully (recursion is bounded only by the input itself), and the
closed error taxonomy contains no depth-related variant — protection
against call-stack exhaustion is not provided. -/
theorem claim_C9_amended :
    (∀ n, parse_pair (nestPair n) = .ok obsFixtureAst) ∧
    (∀ e : ParseError, (∃ m, e = .grammar m) ∨ (∃ m, e = .invalidInt m) ∨
      (∃ m, e = .invalidFloat m) ∨ (∃ s, e = .invalidTimestamp s) ∨
      (∃ r, e = .unexpectedRule r) ∨ (∃ w, e = .missingElement w)) := by
  refine ⟨parse_nest_ok, ?_⟩
  intro e
  cases e <;> simp

/-! ## C1 — the operator/rhs agreement invariant -/


theorem Pair.sizeOf_inner_lt (r : Rule) (s : String) (inner : List Pair) :
    sizeOf inner < sizeOf (Pair.mk r s inner) := by
  simp only [Pair.mk.sizeOf_spec]
  omega

theorem sizeOf_mem_inner {x : Pair} {r : Rule} {s : String} {inner : List Pair}
    (h : x ∈ inner) : sizeOf x < sizeOf (Pair.mk r s inner) :=
  lt_trans (List.sizeOf_lt_of_mem h) (Pair.sizeOf_inner_lt r s inner)

theorem grammarRhsOkList_mem : ∀ {l : List Pair}, grammarRhsOkList l = true →
    ∀ x ∈ l, grammarRhsOk x = true := by
  intro l
  induction l with
  | nil => intro _ x hx; exact absurd hx (List.not_mem_nil x)
  | cons y ys ih =>
    intro h x hx
    rw [grammarRhsOkList, Bool.and_eq_true] at h
    rcases List.mem_cons.mp hx with rfl | hx
    · exact h.1
    · exact ih h.2 x hx

theorem grammarRhsOk_inner {r : Rule} {s : String} {inner : List Pair}
    (h : grammarRhsOk (.mk r s inner) = true) :
    binaryCompOk (.mk r s inner) = true ∧ ∀ x ∈ inner, grammarRhsOk x = true := by
  rw [grammarRhsOk, Bool.and_eq_true] at h
  exact ⟨h.1, grammarRhsOkList_mem h.2⟩

theorem compTailGo_some : ∀ (l : List Pair) (neg : Bool) (op : Option ComparisonOp)
    (rhs : Option ComparisonRhs) res,
    ((∃ x ∈ l, x.rule = .value ∨ x.rule = .list) ∨ rhs.isSome = true) →
    compTailGo l neg op rhs = .ok res → res.2.2.isSome = true := by
  intro l
  induction l with
  | nil =>
    intro neg op rhs res h hok
    rcases h with h | h
    · simp at h
    · rw [compTailGo] at hok
      cases hok
      exact h
  | cons x xs ih =>
    intro neg op rhs res h hok
    have hany : ¬ (x.rule = .value ∨ x.rule = .list) →
        ((∃ y ∈ xs, y.rule = .value ∨ y.rule = .list) ∨ rhs.isSome = true) := by
      intro hx
      rcases h with h | h
      · obtain ⟨y, hy, hp⟩ := h
        rcases List.mem_cons.mp hy with rfl | hy2
        · exact absurd hp hx
        · exact .inl ⟨y, hy2, hp⟩
      · exact .inr h
    rw [compTailGo] at hok
    split at hok
    · next _ heq =>
      exact ih _ _ _ _ (hany (by simp [heq])) hok
    · next _ heq =>
      split at hok
      · refine ih _ _ _ _ ?_ hok
        exact .inr rfl
      · exact absurd hok (by simp)
    · next _ heq =>
      split at hok
      · refine ih _ _ _ _ ?_ hok
        exact .inr rfl
      · exact absurd hok (by simp)
    · next _ h1 h2 h3 =>
      have hx : ¬ (x.rule = .value ∨ x.rule = .list) := by
        rintro (hv | hl)
        · exact h2 hv
        · exact h3 hl
      split at hok
      · exact ih _ _ _ _ (hany hx) hok
      · exact ih _ _ _ _ (hany hx) hok

theorem parenGo_rhsOk : ∀ (l : List Pair) (acc : Option ComparisonExpr)
    (pending : Option BooleanOp) res,
    (∀ x ∈ l, ∀ e, x.rule = .comparison → grammarRhsOk x = true →
      parse_comparison x = .ok e → e.rhsOk = true) →
    (∀ x ∈ l, grammarRhsOk x = true) →
    (∀ a, acc = some a → a.rhsOk = true) →
    parenGo l acc pending = .ok res →
    ∀ e, res = some e → e.rhsOk = true := by
  intro l
  induction l with
  | nil =>
    intro acc pending res _ _ hacc hok e hres
    rw [parenGo] at hok
    cases hok
    exact hacc e hres
  | cons x xs ih =>
    intro acc pending res helem hwf hacc hok e hres
    have helem2 : ∀ y ∈ xs, ∀ e, y.rule = .comparison → grammarRhsOk y = true →
        parse_comparison y = .ok e → e.rhsOk = true :=
      fun y hy => helem y (List.mem_cons_of_mem _ hy)
    have hwf2 : ∀ y ∈ xs, grammarRhsOk y = true :=
      fun y hy => hwf y (List.mem_cons_of_mem _ hy)
    rw [parenGo] at hok
    split at hok
    · next _ heq =>
      split at hok
      · next c hc =>
        refine ih _ _ _ helem2 hwf2 ?_ hok e hres
        intro a ha
        injection ha with ha
        subst ha
        have hc2 : c.rhsOk = true :=
          helem x (List.mem_cons_self _ _) c heq (hwf x (List.mem_cons_self _ _)) hc
        cases hacc0 : acc with
        | none => simpa [merge_exprs] using hc2
        | some a0 =>
          have ha0 := hacc a0 hacc0
          simp [merge_exprs, ComparisonExpr.rhsOk, ha0, hc2]
      · exact absurd hok (by simp)
    · next _ heq =>
      exact ih _ _ _ helem2 hwf2 hacc hok e hres
    · next _ heq =>
      exact ih _ _ _ helem2 hwf2 hacc hok e hres
    · next _ h1 h2 h3 =>
      exact ih _ _ _ helem2 hwf2 hacc hok e hres

theorem parse_comparison_rhsOk : ∀ (n : Nat) (p : Pair) (e : ComparisonExpr),
    sizeOf p ≤ n → p.rule = .comparison → grammarRhsOk p = true →
    parse_comparison p = .ok e → e.rhsOk = true := by
  intro n
  induction n with
  | zero =>
    intro p e hsz
    exact absurd hsz (by cases p; simp only [Pair.mk.sizeOf_spec]; omega)
  | succ n ih =>
    intro p e hsz hrule hwf hok
    obtain ⟨r, s, inner⟩ := p
    simp only [Pair.rule_mk] at hrule
    subst hrule
    have hbin := (grammarRhsOk_inner hwf).1
    have hmem := (grammarRhsOk_inner hwf).2
    have helem : ∀ x ∈ inner, ∀ e2, x.rule = .comparison → grammarRhsOk x = true →
        parse_comparison x = .ok e2 → e2.rhsOk = true := by
      intro x hx e2 hxr hxw hxok
      have hxs : sizeOf x ≤ n := by
        have h1 := sizeOf_mem_inner (r := .comparison) (s := s) hx
        omega
      exact ih x e2 hxs hxr hxw hxok
    cases inner with
    | nil =>
      rw [parse_comparison.eq_1] at hok
      exact absurd hok (by simp)
    | cons first rest =>
      cases rest with
      | nil =>
        rw [parse_comparison.eq_3] at hok
        split at hok
        · -- comparison branch
          next heq =>
          split at hok
          · next o hpg =>
            split at hok
            · next e2 =>
              injection hok with hok
              subst hok
              exact parenGo_rhsOk [first] none none (some e2) helem hmem
                (by intro a ha; exact absurd ha (by simp)) hpg e2 rfl
            · exact absurd hok (by simp)
          · exact absurd hok (by simp)
        · exact absurd hok (by simp)
        · -- path branch with empty tail: no operator
          next heq =>
          split at hok
          · simp only [compTailGo] at hok
            exact absurd hok (by simp)
          · exact absurd hok (by simp)
        · exact absurd hok (by simp)
      | cons second tail =>
        rw [parse_comparison.eq_2] at hok
        split at hok
        · -- comparison branch
          next heq =>
          split at hok
          · next o hpg =>
            split at hok
            · next e2 =>
              injection hok with hok
              subst hok
              exact parenGo_rhsOk (first :: second :: tail) none none (some e2) helem hmem
                (by intro a ha; exact absurd ha (by simp)) hpg e2 rfl
            · exact absurd hok (by simp)
          · exact absurd hok (by simp)
        · -- exists branch
          next heq =>
          split at hok
          · next path hpath =>
            injection hok with hok
            subst hok
            rfl
          · exact absurd hok (by simp)
        · -- path branch
          next heq =>
          split at hok
          · next path hpath =>
            split at hok
            · next negated op rhs hct =>
              injection hok with hok
              subst hok
              have hany : ((first :: second :: tail).any
                  fun x => decide (x.rule = .value ∨ x.rule = .list)) = true := by
                rw [binaryCompOk] at hbin
                simp only [Pair.rule_mk, Pair.inner_mk, List.head?_cons, heq,
                  eq_self_iff_true, if_true] at hbin
                exact hbin
              have hany2 : ∃ x ∈ second :: tail, x.rule = .value ∨ x.rule = .list := by
                obtain ⟨x, hx, hp⟩ := List.any_eq_true.mp hany
                rcases List.mem_cons.mp hx with rfl | hx2
                · rw [heq] at hp
                  simp at hp
                · exact ⟨x, hx2, by simpa using hp⟩
              have hsome := compTailGo_some (second :: tail) false none none
                (negated, some op, rhs) (.inl hany2) hct
              simpa [ComparisonExpr.rhsOk, Comparison.rhsOk] using hsome
            · exact absurd hok (by simp)
            · exact absurd hok (by simp)
          · exact absurd hok (by simp)
        · exact absurd hok (by simp)

theorem parse_comparison_rhsOk2 {p : Pair} {e : ComparisonExpr} (hr : p.rule = .comparison)
    (hw : grammarRhsOk p = true) (hok : parse_comparison p = .ok e) : e.rhsOk = true :=
  parse_comparison_rhsOk (sizeOf p) p e (Nat.le_refl _) hr hw hok

theorem apply_to_rhsOk (q : Qualifiers) (pat : PatternExpr) :
    (q.apply_to pat).rhsOk = pat.rhsOk := by
  rw [Qualifiers.apply_to]
  split
  · rfl
  · rfl

theorem obsGo_rhsOk : ∀ (l : List Pair) (acc : Option ComparisonExpr)
    (pending : Option BooleanOp) (q : Qualifiers) res,
    (∀ x ∈ l, grammarRhsOk x = true) →
    (∀ a, acc = some a → a.rhsOk = true) →
    obsGo l acc pending q = .ok res →
    ∀ e q2, res = (some e, q2) → e.rhsOk = true := by
  intro l
  induction l with
  | nil =>
    intro acc pending q res _ hacc hok e q2 hres
    rw [obsGo] at hok
    cases hok
    injection hres with h1 h2
    exact hacc e h1
  | cons x xs ih =>
    intro acc pending q res hwf hacc hok e q2 hres
    have hwf2 : ∀ y ∈ xs, grammarRhsOk y = true :=
      fun y hy => hwf y (List.mem_cons_of_mem _ hy)
    rw [obsGo] at hok
    split at hok
    · next _ heq =>
      split at hok
      · next c hc =>
        refine ih _ _ _ _ hwf2 ?_ hok e q2 hres
        intro a ha
        injection ha with ha
        subst ha
        have hc2 : c.rhsOk = true :=
          parse_comparison_rhsOk2 heq (hwf x (List.mem_cons_self _ _)) hc
        cases hacc0 : acc with
        | none => simpa [merge_exprs] using hc2
        | some a0 =>
          have ha0 := hacc a0 hacc0
          simp [merge_exprs, ComparisonExpr.rhsOk, ha0, hc2]
      · exact absurd hok (by simp)
    · next _ heq => exact ih _ _ _ _ hwf2 hacc hok e q2 hres
    · next _ heq => exact ih _ _ _ _ hwf2 hacc hok e q2 hres
    · next _ heq =>
      split at hok
      · next q3 hq => exact ih _ _ _ _ hwf2 hacc hok e q2 hres
      · exact absurd hok (by simp)
    · next _ h1 h2 h3 h4 => exact ih _ _ _ _ hwf2 hacc hok e q2 hres

theorem parse_observation_rhsOk : ∀ (p : Pair) (a : PatternExpr),
    grammarRhsOk p = true → parse_observation p = .ok a → a.rhsOk = true := by
  intro p a hwf hok
  obtain ⟨r, s, inner⟩ := p
  rw [parse_observation] at hok
  simp only [Pair.inner_mk] at hok
  split at hok
  · next e q heq =>
    injection hok with hok
    subst hok
    rw [apply_to_rhsOk]
    exact obsGo_rhsOk inner none none {} (some e, q) (grammarRhsOk_inner hwf).2
      (by intro a2 ha; exact absurd ha (by simp)) heq e q rfl
  · exact absurd hok (by simp)
  · exact absurd hok (by simp)

theorem exprGo_rhsOk : ∀ (n : Nat) (l : List Pair) (left : PatternExpr) res,
    l.length ≤ n →
    (∀ x ∈ l, ∀ a, grammarRhsOk x = true → parse_pair x = .ok a → a.rhsOk = true) →
    (∀ x ∈ l, grammarRhsOk x = true) →
    left.rhsOk = true →
    exprGo left l = .ok res → res.rhsOk = true := by
  intro n
  induction n with
  | zero =>
    intro l left res hl _ _ hleft hok
    rw [Nat.le_zero, List.length_eq_zero] at hl
    subst hl
    rw [exprGo] at hok
    cases hok
    exact hleft
  | succ n ih =>
    intro l left res hl helem hwf hleft hok
    cases l with
    | nil =>
      rw [exprGo] at hok
      cases hok
      exact hleft
    | cons op_pair rest =>
      rw [exprGo] at hok
      split at hok
      · next op hop =>
        cases rest with
        | nil =>
          replace hok :
              (Except.error (ParseError.missingElement "right operand") :
                Except ParseError PatternExpr) = .ok res := hok
          exact absurd hok (by simp)
        | cons right_pair rest2 =>
          replace hok : (match parse_pair right_pair with
              | .ok right => exprGo (left.composite op right) rest2
              | .error e => .error e) = .ok res := hok
          split at hok
          · next right hright =>
            have hR : right.rhsOk = true :=
              helem right_pair (by simp) right (hwf right_pair (by simp)) hright
            have hlen : rest2.length ≤ n := by
              simp only [List.length_cons] at hl
              omega
            refine ih rest2 (.composite left op right) res hlen ?_ ?_ ?_ hok
            · intro x hx a hxw hxok
              exact helem x (by simp [hx]) a hxw hxok
            · intro x hx
              exact hwf x (by simp [hx])
            · simp [PatternExpr.rhsOk, hleft, hR]
          · exact absurd hok (by simp)
      · exact absurd hok (by simp)

theorem patternGo_rhsOk : ∀ (l : List Pair) (a : PatternExpr),
    (∀ x ∈ l, ∀ a2, grammarRhsOk x = true → parse_expression x = .ok a2 →
      a2.rhsOk = true) →
    (∀ x ∈ l, grammarRhsOk x = true) →
    patternGo l = .ok a → a.rhsOk = true := by
  intro l
  induction l with
  | nil =>
    intro a _ _ hok
    rw [patternGo] at hok
    exact absurd hok (by simp)
  | cons x xs ih =>
    intro a helem hwf hok
    rw [patternGo] at hok
    split at hok
    · next heq =>
      exact helem x (List.mem_cons_self _ _) a (hwf x (List.mem_cons_self _ _)) hok
    · next heq =>
      exact ih a (fun y hy => helem y (List.mem_cons_of_mem _ hy))
        (fun y hy => hwf y (List.mem_cons_of_mem _ hy)) hok

theorem ogGo_rhsOk : ∀ (l : List Pair) (pat : Option PatternExpr) (q : Qualifiers) res,
    (∀ x ∈ l, ∀ a, grammarRhsOk x = true → parse_expression x = .ok a →
      a.rhsOk = true) →
    (∀ x ∈ l, grammarRhsOk x = true) →
    (∀ a, pat = some a → a.rhsOk = true) →
    ogGo l pat q = .ok res →
    ∀ a q2, res = (some a, q2) → a.rhsOk = true := by
  intro l
  induction l with
  | nil =>
    intro pat q res _ _ hpat hok a q2 hres
    rw [ogGo] at hok
    cases hok
    injection hres with h1 h2
    exact hpat a h1
  | cons x xs ih =>
    intro pat q res helem hwf hpat hok a q2 hres
    have helem2 : ∀ y ∈ xs, ∀ a2, grammarRhsOk y = true →
        parse_expression y = .ok a2 → a2.rhsOk = true :=
      fun y hy => helem y (List.mem_cons_of_mem _ hy)
    have hwf2 : ∀ y ∈ xs, grammarRhsOk y = true :=
      fun y hy => hwf y (List.mem_cons_of_mem _ hy)
    rw [ogGo] at hok
    split at hok
    · next _ heq =>
      split at hok
      · next e he =>
        refine ih _ _ _ helem2 hwf2 ?_ hok a q2 hres
        intro a2 ha2
        injection ha2 with ha2
        subst ha2
        exact helem x (List.mem_cons_self _ _) e (hwf x (List.mem_cons_self _ _)) he
      · exact absurd hok (by simp)
    · next _ heq =>
      split at hok
      · next q3 hq => exact ih _ _ _ helem2 hwf2 hpat hok a q2 hres
      · exact absurd hok (by simp)
    · next _ h1 h2 => exact ih _ _ _ helem2 hwf2 hpat hok a q2 hres

theorem parse_rhsOk_main : ∀ (n : Nat) (p : Pair) (a : PatternExpr),
    sizeOf p ≤ n → grammarRhsOk p = true → parse_pair p = .ok a → a.rhsOk = true := by
  intro n
  induction n with
  | zero =>
    intro p a hsz
    exact absurd hsz (by cases p; simp only [Pair.mk.sizeOf_spec]; omega)
  | succ n ih =>
    have hexpr : ∀ (p : Pair) (a : PatternExpr), sizeOf p ≤ n + 1 →
        grammarRhsOk p = true → parse_expression p = .ok a → a.rhsOk = true := by
      intro p a hsz hwf hok
      obtain ⟨r, s, inner⟩ := p
      have hmem := (grammarRhsOk_inner hwf).2
      cases inner with
      | nil =>
        rw [parse_expression] at hok
        exact absurd hok (by simp)
      | cons first rest =>
        rw [parse_expression] at hok
        split at hok
        · next left hleft =>
          have hfs : sizeOf first ≤ n := by
            have := sizeOf_mem_inner (r := r) (s := s)
              (List.mem_cons_self first rest)
            omega
          have hL : left.rhsOk = true :=
            ih first left hfs (hmem first (List.mem_cons_self _ _)) hleft
          refine exprGo_rhsOk rest.length rest left a (Nat.le_refl _) ?_ ?_ hL hok
          · intro x hx a2 hxw hxok
            have hxs : sizeOf x ≤ n := by
              have := sizeOf_mem_inner (r := r) (s := s)
                (List.mem_cons_of_mem first hx)
              omega
            exact ih x a2 hxs hxw hxok
          · intro x hx
            exact hmem x (List.mem_cons_of_mem first hx)
        · exact absurd hok (by simp)
    intro p a hsz hwf hok
    obtain ⟨r, s, inner⟩ := p
    have hmem := (grammarRhsOk_inner hwf).2
    have helemx : ∀ x ∈ inner, ∀ a2, grammarRhsOk x = true →
        parse_expression x = .ok a2 → a2.rhsOk = true := by
      intro x hx a2 hxw hxok
      have hxs : sizeOf x ≤ n + 1 := by
        have := sizeOf_mem_inner (r := r) (s := s) hx
        omega
      exact hexpr x a2 hxs hxw hxok
    rw [parse_pair] at hok
    simp only [Pair.rule_mk] at hok
    split at hok
    · rw [parse_pattern_rule] at hok
      exact patternGo_rhsOk inner a helemx hmem hok
    · exact hexpr (.mk .expression s inner) a hsz hwf hok
    · exact parse_observation_rhsOk _ a hwf hok
    · rw [parse_observation_group] at hok
      split at hok
      · next pat q heq =>
        injection hok with hok
        subst hok
        rw [apply_to_rhsOk]
        exact ogGo_rhsOk inner none {} (some pat, q) helemx hmem
          (by intro a2 ha; exact absurd ha (by simp)) heq pat q rfl
      · exact absurd hok (by simp)
      · exact absurd hok (by simp)
    · exact absurd hok (by simp)

/-- C1: for every successfully parsed pattern whose concrete tree has
the grammar-guaranteed shape (every path-led comparison node carries a
`value` or `list` child — `grammar.pest` is not under `src/`, so this is
modelled from §6's `comparison := path ["NOT"] compOp rhs`), every
`Comparison` node of the resulting AST agrees with its operator family:
an `EXISTS` comparison has rhs `none`, and a comparison with any of the
eleven binary operators has rhs `some` (a single value or a list). -/
theorem claim_C1 : ∀ (p : Pair) (a : PatternExpr), grammarRhsOk p = true →
    parse_pattern p = .ok a → a.rhsOk = true :=
  fun p a hwf hok => parse_rhsOk_main (sizeOf p) p a (Nat.le_refl _) hwf hok

/-- Witness for C1: the fixture `[file:name = 'foo']` (binary operator,
rhs present) and `[EXISTS file:name]` (rhs absent). -/
theorem claim_C1_witness :
    (grammarRhsOk obsFixture = true ∧ PatternExpr.rhsOk obsFixtureAst = true) ∧
    (grammarRhsOk existsObs = true ∧ PatternExpr.rhsOk existsObsAst = true) := by
  have hex : parse_pattern existsObs = .ok existsObsAst := by
    simp [existsObs, existsObsAst, parse_pattern, parse_pair, parse_observation, obsGo,
      parse_comparison, parse_object_path, pathGo, parse_step, stepGo, strip_quotes,
      stripQuoteAtFront, stripQuoteAtBack, merge_exprs, Qualifiers.apply_to,
      Qualifiers.is_empty]
  exact ⟨⟨by decide, claim_C1 obsFixture obsFixtureAst (by decide) parse_obsFixture_ok⟩,
         ⟨by decide, claim_C1 existsObs existsObsAst (by decide) hex⟩⟩


end StixPatterns
